import Mathlib

set_option autoImplicit false
set_option linter.unusedSectionVars false

/-
Shallow embedding of the `rusty-edges` directed-acyclic-graph container
(src/src/graph.rs).  The node map `HashMap<u64, Node<T>>` is modelled as an
association list with unique keys (keys are `Nat`), the neighbor set
`HashSet<u64>` as a duplicate-free `List Nat`.  The label hash function
(`crate::hash`) and the `iter` traversal module are not part of the sources;
the hash is an arbitrary parameter `hash : T → Nat` and the traversal is
modelled from the spec (see `Graph.reachList`).
-/

namespace RustyEdges

/-- Mirrors `Node<T>` of src/src/graph.rs: a label plus the set of outgoing
neighbor keys. -/
structure Node (T : Type) where
  label : T
  neighbors : List Nat
deriving DecidableEq

/-- Mirrors `Graph<T>` of src/src/graph.rs: the node map, keyed by the hash
of each node's label. -/
structure Graph (T : Type) where
  nodes : List (Nat × Node T)
deriving DecidableEq

variable {T : Type} [DecidableEq T]

/-- Set-wise insertion of a key into a key set (models `HashSet::insert`:
no duplicate is created when the key is already present). -/
def insertKey (s : List Nat) (k : Nat) : List Nat :=
  if k ∈ s then s else k :: s

namespace Node

variable (hash : T → Nat)

/-- Mirrors `Node::is_adjacent_to`: is `hash t` in the neighbor-key set? -/
def is_adjacent_to (n : Node T) (t : T) : Bool :=
  decide (hash t ∈ n.neighbors)

/-- Mirrors `Node::connect_to`: insert `hash t` into the neighbor-key set. -/
def connect_to (n : Node T) (t : T) : Node T :=
  ⟨n.label, insertKey n.neighbors (hash t)⟩

/-- Mirrors `Node::disconnect_from`: remove `hash l` from the neighbor-key
set (`HashSet::remove`). -/
def disconnect_from (n : Node T) (l : T) : Node T :=
  ⟨n.label, n.neighbors.filter (fun j => decide (j ≠ hash l))⟩

end Node

namespace Graph

/-- Lookup in the association-list node map (models `HashMap::get`; keys
are unique by construction, lookup returns the first match). -/
def mapFind (k : Nat) : List (Nat × Node T) → Option (Node T)
  | [] => none
  | p :: rest => if p.1 = k then some p.2 else mapFind k rest

/-- Insertion into the association-list node map, overwriting the entry at
an existing key (models `HashMap::insert`). -/
def mapInsert (k : Nat) (v : Node T) : List (Nat × Node T) → List (Nat × Node T)
  | [] => [(k, v)]
  | p :: rest => if p.1 = k then (k, v) :: rest else p :: mapInsert k v rest

variable (hash : T → Nat)

/-- Mirrors `Graph::new` (and `Default`): the empty graph. -/
def new : Graph T := ⟨[]⟩

/-- Mirrors `Graph::get`: lookup by the hash of the label. -/
def get (g : Graph T) (label : T) : Option (Node T) :=
  mapFind (hash label) g.nodes

/-- Mirrors `Graph::add_node`. -/
def add_node (g : Graph T) (node : Node T) : Graph T :=
  ⟨mapInsert (hash node.label) node g.nodes⟩

/-- Mirrors `Graph::add`: insert a node with an empty neighbor set. -/
def add (g : Graph T) (label : T) : Graph T :=
  add_node hash g ⟨label, []⟩

/-- Mirrors `Graph::init`: start from the empty graph and `add` every label. -/
def init (labels : List T) : Graph T :=
  labels.foldl (add hash) new

/-- Mirrors `Graph::remove`: delete the entry at `hash label` (if present)
and strip that key from every remaining node's neighbor set; returns the
removed node together with the resulting graph. -/
def remove (g : Graph T) (label : T) : Option (Node T) × Graph T :=
  match mapFind (hash label) g.nodes with
  | none => (none, g)
  | some node =>
    (some node,
      ⟨(g.nodes.filter (fun p => decide (p.1 ≠ hash label))).map
        (fun p => (p.1, p.2.disconnect_from hash label))⟩)

/-- Resolve a list of neighbor keys to the labels of the stored nodes;
`none` models the panic of the `unwrap` in `Graph::neighbors` when a key
fails to resolve. -/
def resolveAll (g : Graph T) : List Nat → Option (List T)
  | [] => some []
  | k :: ks =>
    match mapFind k g.nodes, resolveAll g ks with
    | some n, some ts => some (n.label :: ts)
    | _, _ => none

/-- Mirrors `Graph::neighbors`: the outer `none` is "no such node", an inner
`none` would be the `unwrap` panic on an unresolvable neighbor key. -/
def neighbors (g : Graph T) (label : T) : Option (Option (List T)) :=
  (get hash g label).map (fun n => resolveAll g n.neighbors)

/-- Mirrors `Graph::is_connected`: direct-edge test. -/
def is_connected (g : Graph T) (x y : T) : Bool :=
  match get hash g x with
  | some n => n.is_adjacent_to hash y
  | none => false

/-- Successor keys of a key: the stored node's neighbor-key set, empty when
the key is absent from the map. -/
def succs (g : Graph T) (k : Nat) : List Nat :=
  match mapFind k g.nodes with
  | some n => n.neighbors
  | none => []

/-- One saturation step of the reachability computation: add every successor
of every key already in the set. -/
def stepSet (g : Graph T) (s : List Nat) : List Nat :=
  s.foldl (fun acc j => (succs g j).foldl insertKey acc) s

/-- All keys the reachability computation can ever produce: the start key
and every key occurring in some node's neighbor set. -/
def keyUniverse (g : Graph T) (start : Nat) : List Nat :=
  start :: g.nodes.flatMap (fun p => p.2.neighbors)

/-- Modelled from the spec: the repository's `iter` module (the `walk`
reachability traversal that `Graph::connect` uses, spec §4.4) is not among
the sources.  Per the spec the traversal enumerates, each at most once, the
nodes reachable from the start node via outgoing edges, and `connect`
consumes it only as the predicate "does the sequence contain `from`"; node
identity is key identity (spec §3).  `reachList g k` computes the set of
keys reachable from `k` by saturation, which the adequacy theorems below
prove equal to reflexive-transitive reachability over the edge relation. -/
def reachList (g : Graph T) (start : Nat) : List Nat :=
  (stepSet g)^[(keyUniverse g start).length] [start]

/-- Mirrors `Graph::connect`: reject self-loops by hash, then missing
endpoints, then run the cycle check (the traversal is spec-modelled by
`reachList`, see there); otherwise insert the edge. -/
def connect (g : Graph T) (x y : T) : Bool × Graph T :=
  if hash x = hash y then (false, g)
  else if !(mapFind (hash x) g.nodes).isSome || !(mapFind (hash y) g.nodes).isSome then
    (false, g)
  else if hash x ∈ reachList g (hash y) then (false, g)
  else
    (true,
      ⟨g.nodes.map (fun p => if p.1 = hash x then (p.1, p.2.connect_to hash y) else p)⟩)

/-- Mirrors `Graph::disconnect`. -/
def disconnect (g : Graph T) (x y : T) : Bool × Graph T :=
  if (mapFind (hash y) g.nodes).isSome && (mapFind (hash x) g.nodes).isSome then
    (true, ⟨g.nodes.map (fun p => if p.1 = hash x then (p.1, p.2.disconnect_from hash y) else p)⟩)
  else (false, g)

/-- A key is present in the node map. -/
def containsKey (g : Graph T) (k : Nat) : Bool :=
  (mapFind k g.nodes).isSome

/-- The directed edge relation on keys induced by all nodes' neighbor-key
sets. -/
def edgeRel (g : Graph T) (j k : Nat) : Prop :=
  k ∈ succs g j

instance (g : Graph T) (j k : Nat) : Decidable (edgeRel g j k) :=
  inferInstanceAs (Decidable (k ∈ succs g j))

end Graph

/-- Graph states reachable from the empty graph by any sequence of the
public operations (`new`, `init` = iterated `add`, `add`, `remove`,
`connect`, `disconnect`). -/
inductive Reachable (hash : T → Nat) : Graph T → Prop where
  | emp : Reachable hash Graph.new
  | addOp (g : Graph T) (label : T) :
      Reachable hash g → Reachable hash (Graph.add hash g label)
  | removeOp (g : Graph T) (label : T) :
      Reachable hash g → Reachable hash (Graph.remove hash g label).2
  | connectOp (g : Graph T) (x y : T) :
      Reachable hash g → Reachable hash (Graph.connect hash g x y).2
  | disconnectOp (g : Graph T) (x y : T) :
      Reachable hash g → Reachable hash (Graph.disconnect hash g x y).2

/-- The edge relation admits no directed cycle (no key reaches itself in one
or more steps). -/
def Graph.Acyclic (g : Graph T) : Prop :=
  ∀ k, ¬ Relation.TransGen (Graph.edgeRel g) k k

/-- The node map binds each key at most once. -/
def Graph.NodupKeys (g : Graph T) : Prop :=
  (g.nodes.map Prod.fst).Nodup

/-- Every key in any node's neighbor set is present in the node map. -/
def Graph.NoDangling (g : Graph T) : Prop :=
  ∀ p ∈ g.nodes, ∀ j ∈ p.2.neighbors, (Graph.mapFind j g.nodes).isSome = true

/-- The three internal invariants together. -/
def Graph.GoodState (g : Graph T) : Prop :=
  Graph.NodupKeys g ∧ Graph.NoDangling g ∧ Graph.Acyclic g

/-! ### Basic lemmas about the association-list node map -/

namespace Graph

theorem mapFind_mapInsert_self (k : Nat) (v : Node T) (l : List (Nat × Node T)) :
    mapFind k (mapInsert k v l) = some v := by
  induction l with
  | nil => simp [mapInsert, mapFind]
  | cons p rest ih =>
    by_cases h : p.1 = k
    · simp [mapInsert, h, mapFind]
    · simp [mapInsert, h, mapFind, ih]

theorem mapFind_mapInsert_ne (k k' : Nat) (v : Node T) (l : List (Nat × Node T))
    (h : k' ≠ k) : mapFind k' (mapInsert k v l) = mapFind k' l := by
  induction l with
  | nil => simp [mapInsert, mapFind, Ne.symm h]
  | cons p rest ih =>
    by_cases hp : p.1 = k
    · subst hp
      simp [mapInsert, mapFind, h, Ne.symm h]
    · simp only [mapInsert, if_neg hp]
      by_cases hp' : p.1 = k'
      · simp [mapFind, hp']
      · simp [mapFind, hp', ih]

theorem mem_mapInsert (k : Nat) (v : Node T) (l : List (Nat × Node T))
    (p : Nat × Node T) (h : p ∈ mapInsert k v l) : p = (k, v) ∨ p ∈ l := by
  induction l with
  | nil => simpa [mapInsert] using h
  | cons q rest ih =>
    by_cases hq : q.1 = k
    · simp only [mapInsert, if_pos hq, List.mem_cons] at h
      rcases h with h | h
      · exact Or.inl h
      · exact Or.inr (List.mem_cons_of_mem q h)
    · simp only [mapInsert, if_neg hq, List.mem_cons] at h
      rcases h with h | h
      · exact Or.inr (h ▸ List.mem_cons_self q rest)
      · rcases ih h with h' | h'
        · exact Or.inl h'
        · exact Or.inr (List.mem_cons_of_mem q h')

theorem mapFind_mem {k : Nat} {n : Node T} {l : List (Nat × Node T)}
    (h : mapFind k l = some n) : (k, n) ∈ l := by
  induction l with
  | nil => simp [mapFind] at h
  | cons p rest ih =>
    by_cases hp : p.1 = k
    · simp only [mapFind, if_pos hp] at h
      cases h
      have hkp : (k, p.2) = p := by rw [← hp]
      rw [hkp]
      exact List.mem_cons_self p rest
    · simp only [mapFind, if_neg hp] at h
      exact List.mem_cons_of_mem p (ih h)

theorem mapFind_isSome_iff (k : Nat) (l : List (Nat × Node T)) :
    (mapFind k l).isSome = true ↔ ∃ n, (k, n) ∈ l := by
  constructor
  · intro h
    rcases Option.isSome_iff_exists.mp h with ⟨n, hn⟩
    exact ⟨n, mapFind_mem hn⟩
  · rintro ⟨n, hn⟩
    induction l with
    | nil => simp at hn
    | cons p rest ih =>
      rcases List.mem_cons.mp hn with h | h
      · simp [mapFind, ← h]
      · by_cases hp : p.1 = k
        · simp [mapFind, hp]
        · simpa [mapFind, hp] using ih h

theorem keys_mapInsert (k : Nat) (v : Node T) (l : List (Nat × Node T)) :
    (mapInsert k v l).map Prod.fst =
      if k ∈ l.map Prod.fst then l.map Prod.fst else l.map Prod.fst ++ [k] := by
  induction l with
  | nil => simp [mapInsert]
  | cons p rest ih =>
    by_cases hp : p.1 = k
    · simp [mapInsert, hp]
    · have hkp : ¬ k = p.1 := fun h => hp h.symm
      by_cases hm : k ∈ rest.map Prod.fst
      · simp [mapInsert, hp, ih, hm, hkp]
      · simp [mapInsert, hp, ih, hm, hkp]

theorem mapFind_update (f : Node T → Node T) (a k : Nat) (l : List (Nat × Node T)) :
    mapFind k (l.map fun p => if p.1 = a then (p.1, f p.2) else p) =
      if k = a then (mapFind k l).map f else mapFind k l := by
  induction l with
  | nil => simp [mapFind]
  | cons p rest ih =>
    by_cases hp : p.1 = a
    · by_cases hk : k = a
      · subst hk
        simp [mapFind, hp]
      · have h1 : ¬ p.1 = k := fun h => hk (h ▸ hp)
        have h3 : ¬ a = k := fun h => hk h.symm
        simp [mapFind, hp, h1, h3, hk, ih]
    · by_cases hpk : p.1 = k
      · have hk : ¬ k = a := fun h => hp (hpk.trans h)
        simp [mapFind, hp, hpk, hk]
      · simp [mapFind, hp, hpk, ih]

theorem mapFind_strip (f : Node T → Node T) (key k : Nat) (l : List (Nat × Node T)) :
    mapFind k ((l.filter fun p => decide (p.1 ≠ key)).map fun p => (p.1, f p.2)) =
      if k = key then none else (mapFind k l).map f := by
  induction l with
  | nil => simp [mapFind]
  | cons p rest ih =>
    rw [List.filter_cons]
    by_cases hp : p.1 = key
    · have hd : decide (p.1 ≠ key) = false := by simp [hp]
      rw [hd]
      simp only [Bool.false_eq_true, if_false]
      rw [ih]
      by_cases hk : k = key
      · simp [hk]
      · have h2 : ¬ p.1 = k := fun h => hk (h ▸ hp)
        simp [mapFind, hk, h2]
    · have hd : decide (p.1 ≠ key) = true := by simp [hp]
      rw [hd]
      simp only [if_true]
      by_cases hpk : p.1 = k
      · have hk : ¬ k = key := fun h => hp (hpk.trans h)
        simp [mapFind, List.map_cons, hpk, hk]
      · simp only [List.map_cons, mapFind, if_neg hpk]
        exact ih

end Graph

/-! ### Lemmas about key-set insertion and the saturation step -/

theorem mem_insertKey (s : List Nat) (k j : Nat) :
    j ∈ insertKey s k ↔ j = k ∨ j ∈ s := by
  unfold insertKey
  by_cases h : k ∈ s
  · simp only [if_pos h]
    constructor
    · exact Or.inr
    · rintro (rfl | hj)
      · exact h
      · exact hj
  · simp [if_neg h, List.mem_cons]

theorem insertKey_nodup (s : List Nat) (k : Nat) (h : s.Nodup) :
    (insertKey s k).Nodup := by
  unfold insertKey
  by_cases hk : k ∈ s
  · simpa [if_pos hk]
  · simp [if_neg hk, h, hk]

theorem insertKey_of_mem {s : List Nat} {k : Nat} (h : k ∈ s) :
    insertKey s k = s := by
  simp [insertKey, h]

theorem subset_foldl_insertKey (l acc : List Nat) :
    acc ⊆ l.foldl insertKey acc := by
  induction l generalizing acc with
  | nil => simp
  | cons x xs ih =>
    intro j hj
    exact ih (insertKey acc x) ((mem_insertKey acc x j).mpr (Or.inr hj))

theorem mem_foldl_insertKey (l acc : List Nat) (j : Nat) :
    j ∈ l.foldl insertKey acc ↔ j ∈ acc ∨ j ∈ l := by
  induction l generalizing acc with
  | nil => simp
  | cons x xs ih =>
    simp only [List.foldl_cons, ih, mem_insertKey, List.mem_cons]
    tauto

theorem nodup_foldl_insertKey (l acc : List Nat) (h : acc.Nodup) :
    (l.foldl insertKey acc).Nodup := by
  induction l generalizing acc with
  | nil => simpa
  | cons x xs ih => exact ih _ (insertKey_nodup acc x h)

theorem foldl_insertKey_append (l acc : List Nat) :
    ∃ pre : List Nat, l.foldl insertKey acc = pre ++ acc := by
  induction l generalizing acc with
  | nil => exact ⟨[], rfl⟩
  | cons x xs ih =>
    rcases ih (insertKey acc x) with ⟨pre, hpre⟩
    by_cases hx : x ∈ acc
    · refine ⟨pre, ?_⟩
      simp only [List.foldl_cons]
      rw [hpre, insertKey_of_mem hx]
    · refine ⟨pre ++ [x], ?_⟩
      simp only [List.foldl_cons]
      rw [hpre]
      simp [insertKey, hx]

namespace Graph

theorem subset_foldl_step (g : Graph T) (l acc : List Nat) :
    acc ⊆ l.foldl (fun acc j => (succs g j).foldl insertKey acc) acc := by
  induction l generalizing acc with
  | nil => simp
  | cons x xs ih =>
    intro j hj
    exact ih _ (subset_foldl_insertKey _ _ hj)

theorem subset_stepSet (g : Graph T) (s : List Nat) : s ⊆ stepSet g s :=
  subset_foldl_step g s s

theorem mem_foldl_step (g : Graph T) (l acc : List Nat) (x : Nat) :
    x ∈ l.foldl (fun acc j => (succs g j).foldl insertKey acc) acc ↔
      x ∈ acc ∨ ∃ j ∈ l, x ∈ succs g j := by
  induction l generalizing acc with
  | nil => simp
  | cons y ys ih =>
    simp only [List.foldl_cons, ih, mem_foldl_insertKey, List.mem_cons]
    constructor
    · rintro ((h | h) | ⟨j, hj, hx⟩)
      · exact Or.inl h
      · exact Or.inr ⟨y, Or.inl rfl, h⟩
      · exact Or.inr ⟨j, Or.inr hj, hx⟩
    · rintro (h | ⟨j, (rfl | hj), hx⟩)
      · exact Or.inl (Or.inl h)
      · exact Or.inl (Or.inr hx)
      · exact Or.inr ⟨j, hj, hx⟩

theorem mem_stepSet (g : Graph T) (s : List Nat) (x : Nat) :
    x ∈ stepSet g s ↔ x ∈ s ∨ ∃ j ∈ s, x ∈ succs g j :=
  mem_foldl_step g s s x

theorem nodup_foldl_step (g : Graph T) (l acc : List Nat) (h : acc.Nodup) :
    (l.foldl (fun acc j => (succs g j).foldl insertKey acc) acc).Nodup := by
  induction l generalizing acc with
  | nil => simpa
  | cons x xs ih => exact ih _ (nodup_foldl_insertKey _ _ h)

theorem nodup_stepSet (g : Graph T) (s : List Nat) (h : s.Nodup) :
    (stepSet g s).Nodup :=
  nodup_foldl_step g s s h

theorem foldl_step_append (g : Graph T) (l acc : List Nat) :
    ∃ pre : List Nat,
      l.foldl (fun acc j => (succs g j).foldl insertKey acc) acc = pre ++ acc := by
  induction l generalizing acc with
  | nil => exact ⟨[], rfl⟩
  | cons x xs ih =>
    rcases foldl_insertKey_append (succs g x) acc with ⟨p1, hp1⟩
    rcases ih ((succs g x).foldl insertKey acc) with ⟨p2, hp2⟩
    refine ⟨p2 ++ p1, ?_⟩
    simp only [List.foldl_cons]
    rw [hp2, hp1, List.append_assoc]

theorem stepSet_append (g : Graph T) (s : List Nat) :
    ∃ pre : List Nat, stepSet g s = pre ++ s :=
  foldl_step_append g s s

theorem stepSet_eq_of_length (g : Graph T) (s : List Nat)
    (h : (stepSet g s).length = s.length) : stepSet g s = s := by
  rcases stepSet_append g s with ⟨pre, hpre⟩
  rcases List.eq_nil_or_concat pre with rfl | ⟨_, _, rfl⟩
  · simpa using hpre
  · rw [hpre] at h
    simp at h
    omega

/-! ### Adequacy of the reachability computation -/

theorem succs_subset (g : Graph T) (j : Nat) :
    succs g j ⊆ g.nodes.flatMap (fun p => p.2.neighbors) := by
  intro x hx
  unfold succs at hx
  cases hfind : mapFind j g.nodes with
  | none => simp [hfind] at hx
  | some n =>
    simp only [hfind] at hx
    exact List.mem_flatMap.mpr ⟨(j, n), mapFind_mem hfind, hx⟩

theorem iter_nodup (g : Graph T) (start : Nat) (n : Nat) :
    ((stepSet g)^[n] [start]).Nodup := by
  induction n with
  | zero => simp
  | succ m ih =>
    rw [Function.iterate_succ_apply']
    exact nodup_stepSet g _ ih

theorem start_mem_iter (g : Graph T) (start : Nat) (n : Nat) :
    start ∈ (stepSet g)^[n] [start] := by
  induction n with
  | zero => simp
  | succ m ih =>
    rw [Function.iterate_succ_apply']
    exact subset_stepSet g _ ih

theorem iter_subset_universe (g : Graph T) (start : Nat) (n : Nat) :
    (stepSet g)^[n] [start] ⊆ keyUniverse g start := by
  induction n with
  | zero =>
    intro x hx
    simp at hx
    simp [keyUniverse, hx]
  | succ m ih =>
    rw [Function.iterate_succ_apply']
    intro x hx
    rcases (mem_stepSet g _ x).mp hx with h | ⟨j, hj, hx'⟩
    · exact ih h
    · exact List.mem_cons_of_mem _ (succs_subset g j hx')

theorem iter_sound (g : Graph T) (start : Nat) (n : Nat) (x : Nat)
    (hx : x ∈ (stepSet g)^[n] [start]) :
    Relation.ReflTransGen (edgeRel g) start x := by
  induction n generalizing x with
  | zero =>
    simp at hx
    exact hx ▸ Relation.ReflTransGen.refl
  | succ m ih =>
    rw [Function.iterate_succ_apply'] at hx
    rcases (mem_stepSet g _ x).mp hx with h | ⟨j, hj, hx'⟩
    · exact ih x h
    · exact Relation.ReflTransGen.tail (ih j hj) hx'

theorem iter_length_lower (g : Graph T) (start : Nat) (n : Nat)
    (h : ∀ m < n, stepSet g ((stepSet g)^[m] [start]) ≠ (stepSet g)^[m] [start]) :
    n + 1 ≤ ((stepSet g)^[n] [start]).length := by
  induction n with
  | zero => simp
  | succ m ih =>
    have hm : m + 1 ≤ ((stepSet g)^[m] [start]).length :=
      ih (fun i hi => h i (Nat.lt_succ_of_lt hi))
    rw [Function.iterate_succ_apply']
    have hne := h m (Nat.lt_succ_self m)
    rcases stepSet_append g ((stepSet g)^[m] [start]) with ⟨pre, hpre⟩
    have hpre_ne : pre ≠ [] := by
      rintro rfl
      simp only [List.nil_append] at hpre
      exact hne hpre
    have hpos : 1 ≤ pre.length := List.length_pos.mpr hpre_ne
    rw [hpre, List.length_append]
    omega

theorem exists_fixpoint (g : Graph T) (start : Nat) :
    ∃ m, m < (keyUniverse g start).length ∧
      stepSet g ((stepSet g)^[m] [start]) = (stepSet g)^[m] [start] := by
  by_contra hcon
  push_neg at hcon
  have hlow : (keyUniverse g start).length + 1 ≤
      ((stepSet g)^[(keyUniverse g start).length] [start]).length :=
    iter_length_lower g start _ (fun m hm => hcon m hm)
  have hnd := iter_nodup g start (keyUniverse g start).length
  have hsub := iter_subset_universe g start (keyUniverse g start).length
  have hle := (hnd.subperm hsub).length_le
  omega

theorem iter_stable (g : Graph T) (s : List Nat) (h : stepSet g s = s) (j : Nat) :
    (stepSet g)^[j] s = s := by
  induction j with
  | zero => rfl
  | succ m ih => rw [Function.iterate_succ_apply', ih, h]

theorem reachList_complete (g : Graph T) (start x : Nat)
    (h : Relation.ReflTransGen (edgeRel g) start x) : x ∈ reachList g start := by
  rcases exists_fixpoint g start with ⟨m, hm, hfix⟩
  have hreach : reachList g start = (stepSet g)^[m] [start] := by
    unfold reachList
    have hsplit : (keyUniverse g start).length =
        ((keyUniverse g start).length - m) + m := by omega
    rw [hsplit, Function.iterate_add_apply]
    exact iter_stable g _ hfix _
  have hclosed : ∀ a b, a ∈ (stepSet g)^[m] [start] → edgeRel g a b →
      b ∈ (stepSet g)^[m] [start] := by
    intro a b ha hab
    have hb : b ∈ stepSet g ((stepSet g)^[m] [start]) :=
      (mem_stepSet g _ b).mpr (Or.inr ⟨a, ha, hab⟩)
    rwa [hfix] at hb
  rw [hreach]
  induction h with
  | refl => exact start_mem_iter g start m
  | tail hab hbc ih => exact hclosed _ _ ih hbc

theorem mem_reachList_iff (g : Graph T) (start x : Nat) :
    x ∈ reachList g start ↔ Relation.ReflTransGen (edgeRel g) start x := by
  constructor
  · intro h
    exact iter_sound g start _ x h
  · exact reachList_complete g start x

/-! ### Characterizations of the operations -/

variable (hash : T → Nat)

theorem edgeRel_iff (g : Graph T) (j k : Nat) :
    edgeRel g j k ↔ ∃ n, mapFind j g.nodes = some n ∧ k ∈ n.neighbors := by
  unfold edgeRel succs
  cases h : mapFind j g.nodes <;> simp [h]

theorem connect_fst_iff (g : Graph T) (x y : T) :
    (connect hash g x y).1 = true ↔
      hash x ≠ hash y ∧ (mapFind (hash x) g.nodes).isSome = true ∧
        (mapFind (hash y) g.nodes).isSome = true ∧
        ¬ Relation.ReflTransGen (edgeRel g) (hash y) (hash x) := by
  unfold connect
  by_cases hab : hash x = hash y
  · simp [hab]
  · simp only [if_neg hab]
    by_cases hex : (!(mapFind (hash x) g.nodes).isSome || !(mapFind (hash y) g.nodes).isSome) = true
    · rw [if_pos hex]
      simp only [Bool.or_eq_true, Bool.not_eq_true'] at hex
      simp only [Bool.false_eq_true, false_iff]
      rintro ⟨-, h1, h2, -⟩
      rcases hex with hex | hex <;> simp_all
    · rw [if_neg hex]
      simp only [Bool.or_eq_true, Bool.not_eq_true'] at hex
      push_neg at hex
      by_cases hr : hash x ∈ reachList g (hash y)
      · rw [if_pos hr]
        rw [mem_reachList_iff] at hr
        simp only [Bool.false_eq_true, false_iff]
        rintro ⟨-, -, -, hno⟩
        exact hno hr
      · rw [if_neg hr]
        rw [mem_reachList_iff] at hr
        have h1 : (mapFind (hash x) g.nodes).isSome = true :=
          Bool.of_not_eq_false hex.1
        have h2 : (mapFind (hash y) g.nodes).isSome = true :=
          Bool.of_not_eq_false hex.2
        simp [hab, h1, h2, hr]

theorem connect_snd_of_true (g : Graph T) (x y : T)
    (h : (connect hash g x y).1 = true) :
    (connect hash g x y).2 =
      ⟨g.nodes.map fun p =>
        if p.1 = hash x then (p.1, p.2.connect_to hash y) else p⟩ := by
  unfold connect at h ⊢
  split_ifs at h ⊢ <;> simp_all

theorem connect_snd_of_false (g : Graph T) (x y : T)
    (h : (connect hash g x y).1 = false) :
    (connect hash g x y).2 = g := by
  unfold connect at h ⊢
  split_ifs at h ⊢ <;> simp_all

theorem disconnect_fst_iff (g : Graph T) (x y : T) :
    (disconnect hash g x y).1 = true ↔
      (mapFind (hash x) g.nodes).isSome = true ∧
        (mapFind (hash y) g.nodes).isSome = true := by
  unfold disconnect
  by_cases h : ((mapFind (hash y) g.nodes).isSome && (mapFind (hash x) g.nodes).isSome) = true
  · rw [if_pos h]
    simp only [Bool.and_eq_true] at h
    simp [h.1, h.2]
  · rw [if_neg h]
    simp only [Bool.and_eq_true] at h
    push_neg at h
    simp only [Bool.false_eq_true, false_iff]
    rintro ⟨h1, h2⟩
    exact absurd h2 (by simpa [h1] using h)

theorem disconnect_snd_of_true (g : Graph T) (x y : T)
    (h : (disconnect hash g x y).1 = true) :
    (disconnect hash g x y).2 =
      ⟨g.nodes.map fun p =>
        if p.1 = hash x then (p.1, p.2.disconnect_from hash y) else p⟩ := by
  unfold disconnect at h ⊢
  split_ifs at h ⊢ <;> simp_all

theorem disconnect_snd_of_false (g : Graph T) (x y : T)
    (h : (disconnect hash g x y).1 = false) :
    (disconnect hash g x y).2 = g := by
  unfold disconnect at h ⊢
  split_ifs at h ⊢ <;> simp_all

theorem remove_of_none (g : Graph T) (label : T)
    (h : mapFind (hash label) g.nodes = none) :
    remove hash g label = (none, g) := by
  unfold remove
  rw [h]

theorem remove_of_some (g : Graph T) (label : T) (node : Node T)
    (h : mapFind (hash label) g.nodes = some node) :
    remove hash g label =
      (some node,
        ⟨(g.nodes.filter fun p => decide (p.1 ≠ hash label)).map
          fun p => (p.1, p.2.disconnect_from hash label)⟩) := by
  unfold remove
  rw [h]

theorem mapFind_remove_snd (g : Graph T) (label : T) (node : Node T)
    (h : mapFind (hash label) g.nodes = some node) (k : Nat) :
    mapFind k (remove hash g label).2.nodes =
      if k = hash label then none
      else (mapFind k g.nodes).map fun n => n.disconnect_from hash label := by
  rw [remove_of_some hash g label node h]
  exact mapFind_strip (fun n => Node.disconnect_from hash n label) (hash label) k g.nodes

theorem mapFind_connect_snd (g : Graph T) (x y : T)
    (h : (connect hash g x y).1 = true) (k : Nat) :
    mapFind k (connect hash g x y).2.nodes =
      if k = hash x then (mapFind k g.nodes).map fun n => n.connect_to hash y
      else mapFind k g.nodes := by
  rw [connect_snd_of_true hash g x y h]
  exact mapFind_update (fun n => Node.connect_to hash n y) (hash x) k g.nodes

theorem mapFind_disconnect_snd (g : Graph T) (x y : T)
    (h : (disconnect hash g x y).1 = true) (k : Nat) :
    mapFind k (disconnect hash g x y).2.nodes =
      if k = hash x then (mapFind k g.nodes).map fun n => n.disconnect_from hash y
      else mapFind k g.nodes := by
  rw [disconnect_snd_of_true hash g x y h]
  exact mapFind_update (fun n => Node.disconnect_from hash n y) (hash x) k g.nodes

/-! ### Effect of each operation on the edge relation -/

theorem edgeRel_add (g : Graph T) (label : T) (j k : Nat)
    (h : edgeRel (add hash g label) j k) : edgeRel g j k := by
  rw [edgeRel_iff] at h
  rcases h with ⟨n, hfind, hk⟩
  by_cases hj : j = hash label
  · subst hj
    rw [show add hash g label = add_node hash g ⟨label, []⟩ from rfl] at hfind
    unfold add_node at hfind
    rw [mapFind_mapInsert_self] at hfind
    cases hfind
    simp at hk
  · unfold add add_node at hfind
    rw [mapFind_mapInsert_ne _ _ _ _ hj] at hfind
    exact (edgeRel_iff g j k).mpr ⟨n, hfind, hk⟩

theorem edgeRel_remove (g : Graph T) (label : T) (j k : Nat)
    (h : edgeRel (remove hash g label).2 j k) : edgeRel g j k := by
  cases hfind : mapFind (hash label) g.nodes with
  | none => rwa [remove_of_none hash g label hfind] at h
  | some node =>
    rw [edgeRel_iff] at h
    rcases h with ⟨n, hfind', hk⟩
    rw [mapFind_remove_snd hash g label node hfind] at hfind'
    by_cases hj : j = hash label
    · simp [hj] at hfind'
    · rw [if_neg hj] at hfind'
      rcases Option.map_eq_some'.mp hfind' with ⟨n0, hn0, rfl⟩
      unfold Node.disconnect_from at hk
      simp only [List.mem_filter] at hk
      exact (edgeRel_iff g j k).mpr ⟨n0, hn0, hk.1⟩

theorem edgeRel_disconnect (g : Graph T) (x y : T) (j k : Nat)
    (h : edgeRel (disconnect hash g x y).2 j k) : edgeRel g j k := by
  cases hfst : (disconnect hash g x y).1 with
  | false => rwa [disconnect_snd_of_false hash g x y hfst] at h
  | true =>
    rw [edgeRel_iff] at h
    rcases h with ⟨n, hfind', hk⟩
    rw [mapFind_disconnect_snd hash g x y hfst] at hfind'
    by_cases hj : j = hash x
    · rw [if_pos hj] at hfind'
      rcases Option.map_eq_some'.mp hfind' with ⟨n0, hn0, rfl⟩
      unfold Node.disconnect_from at hk
      simp only [List.mem_filter] at hk
      exact (edgeRel_iff g j k).mpr ⟨n0, hn0, hk.1⟩
    · rw [if_neg hj] at hfind'
      exact (edgeRel_iff g j k).mpr ⟨n, hfind', hk⟩

theorem edgeRel_connect_true (g : Graph T) (x y : T)
    (h : (connect hash g x y).1 = true) (j k : Nat) :
    edgeRel (connect hash g x y).2 j k ↔
      edgeRel g j k ∨ (j = hash x ∧ k = hash y) := by
  have hex := ((connect_fst_iff hash g x y).mp h).2.1
  rcases Option.isSome_iff_exists.mp hex with ⟨nx, hnx⟩
  constructor
  · intro he
    rw [edgeRel_iff] at he
    rcases he with ⟨n, hfind', hk⟩
    rw [mapFind_connect_snd hash g x y h] at hfind'
    by_cases hj : j = hash x
    · rw [if_pos hj] at hfind'
      rcases Option.map_eq_some'.mp hfind' with ⟨n0, hn0, rfl⟩
      unfold Node.connect_to at hk
      simp only at hk
      rcases (mem_insertKey _ _ _).mp hk with rfl | hk0
      · exact Or.inr ⟨hj, rfl⟩
      · exact Or.inl ((edgeRel_iff g j k).mpr ⟨n0, hj ▸ hn0, hk0⟩)
    · rw [if_neg hj] at hfind'
      exact Or.inl ((edgeRel_iff g j k).mpr ⟨n, hfind', hk⟩)
  · intro he
    rw [edgeRel_iff]
    rcases he with he | ⟨rfl, rfl⟩
    · rw [edgeRel_iff] at he
      rcases he with ⟨n, hfind', hk⟩
      by_cases hj : j = hash x
      · subst hj
        refine ⟨n.connect_to hash y, ?_, ?_⟩
        · rw [mapFind_connect_snd hash g x y h, if_pos rfl, hfind']
          rfl
        · exact (mem_insertKey _ _ _).mpr (Or.inr hk)
      · exact ⟨n, by rw [mapFind_connect_snd hash g x y h, if_neg hj]; exact hfind', hk⟩
    · refine ⟨nx.connect_to hash y, ?_, ?_⟩
      · rw [mapFind_connect_snd hash g x y h, if_pos rfl, hnx]
        rfl
      · exact (mem_insertKey _ _ _).mpr (Or.inl rfl)

end Graph

/-! ### Adding one edge to an acyclic relation -/

theorem reflTransGen_insert_decomp {R : Nat → Nat → Prop} {a b x y : Nat}
    (h : Relation.ReflTransGen (fun u v => R u v ∨ (u = a ∧ v = b)) x y) :
    Relation.ReflTransGen R x y ∨
      (Relation.ReflTransGen R x a ∧ Relation.ReflTransGen R b y) := by
  induction h with
  | refl => exact Or.inl Relation.ReflTransGen.refl
  | tail hxc hcy ih =>
    rcases hcy with hcy | ⟨rfl, rfl⟩
    · rcases ih with ih | ⟨iha, ihb⟩
      · exact Or.inl (ih.tail hcy)
      · exact Or.inr ⟨iha, ihb.tail hcy⟩
    · rcases ih with ih | ⟨iha, ihb⟩
      · exact Or.inr ⟨ih, Relation.ReflTransGen.refl⟩
      · exact Or.inr ⟨iha, Relation.ReflTransGen.refl⟩

theorem transGen_insert_cycle {R : Nat → Nat → Prop} {a b : Nat}
    (hacy : ∀ k, ¬ Relation.TransGen R k k)
    (hreach : ¬ Relation.ReflTransGen R b a) (k : Nat)
    (hk : Relation.TransGen (fun u v => R u v ∨ (u = a ∧ v = b)) k k) : False := by
  rcases Relation.TransGen.head'_iff.mp hk with ⟨c, hstep, htail⟩
  rcases reflTransGen_insert_decomp htail with hck | ⟨hca, hbk⟩
  · rcases hstep with hstep | ⟨rfl, rfl⟩
    · exact hacy k (Relation.TransGen.head' hstep hck)
    · exact hreach hck
  · rcases hstep with hstep | ⟨rfl, rfl⟩
    · exact hreach ((hbk.tail hstep).trans hca)
    · exact hreach hca

/-! ### Preservation of the invariants by each operation -/

namespace Graph

variable (hash : T → Nat)

theorem keys_update (f : Node T → Node T) (a : Nat) (l : List (Nat × Node T)) :
    (l.map fun p => if p.1 = a then (p.1, f p.2) else p).map Prod.fst =
      l.map Prod.fst := by
  induction l with
  | nil => rfl
  | cons p rest ih =>
    by_cases hp : p.1 = a <;> simp [hp, ih]

theorem nodupKeys_add (g : Graph T) (label : T) (h : NodupKeys g) :
    NodupKeys (add hash g label) := by
  unfold NodupKeys add add_node at *
  simp only [keys_mapInsert]
  by_cases hm : hash label ∈ g.nodes.map Prod.fst
  · simpa [hm]
  · simp [hm, List.nodup_append, h]

theorem nodupKeys_remove (g : Graph T) (label : T) (h : NodupKeys g) :
    NodupKeys (remove hash g label).2 := by
  cases hfind : mapFind (hash label) g.nodes with
  | none => rwa [remove_of_none hash g label hfind]
  | some node =>
    rw [remove_of_some hash g label node hfind]
    unfold NodupKeys at *
    simp only [List.map_map]
    have hsub : ((g.nodes.filter fun p => decide (p.1 ≠ hash label)).map
        (Prod.fst ∘ fun p => (p.1, Node.disconnect_from hash p.2 label))).Sublist
        (g.nodes.map Prod.fst) := by
      have h1 : (Prod.fst ∘ fun p : Nat × Node T =>
          (p.1, Node.disconnect_from hash p.2 label)) = Prod.fst := rfl
      rw [h1]
      exact List.Sublist.map Prod.fst (List.filter_sublist g.nodes)
    exact hsub.nodup h

theorem nodupKeys_connect (g : Graph T) (x y : T) (h : NodupKeys g) :
    NodupKeys (connect hash g x y).2 := by
  cases hfst : (connect hash g x y).1 with
  | false => rwa [connect_snd_of_false hash g x y hfst]
  | true =>
    rw [connect_snd_of_true hash g x y hfst]
    unfold NodupKeys at *
    dsimp only
    rw [keys_update (fun n => Node.connect_to hash n y) (hash x) g.nodes]
    exact h

theorem nodupKeys_disconnect (g : Graph T) (x y : T) (h : NodupKeys g) :
    NodupKeys (disconnect hash g x y).2 := by
  cases hfst : (disconnect hash g x y).1 with
  | false => rwa [disconnect_snd_of_false hash g x y hfst]
  | true =>
    rw [disconnect_snd_of_true hash g x y hfst]
    unfold NodupKeys at *
    dsimp only
    rw [keys_update (fun n => Node.disconnect_from hash n y) (hash x) g.nodes]
    exact h

theorem noDangling_add (g : Graph T) (label : T) (h : NoDangling g) :
    NoDangling (add hash g label) := by
  intro p hp j hj
  unfold add add_node at hp
  rcases mem_mapInsert _ _ _ p hp with rfl | hpg
  · simp at hj
  · have hs := h p hpg j hj
    unfold add add_node
    by_cases hjl : j = hash label
    · subst hjl
      simp [mapFind_mapInsert_self]
    · simp only
      rw [mapFind_mapInsert_ne _ _ _ _ hjl]
      exact hs

theorem noDangling_remove (g : Graph T) (label : T) (h : NoDangling g) :
    NoDangling (remove hash g label).2 := by
  cases hfind : mapFind (hash label) g.nodes with
  | none => rw [remove_of_none hash g label hfind]; exact h
  | some node =>
    intro p hp j hj
    rw [remove_of_some hash g label node hfind] at hp
    simp only [List.mem_map] at hp
    rcases hp with ⟨q, hq, rfl⟩
    rw [List.mem_filter] at hq
    unfold Node.disconnect_from at hj
    simp only [List.mem_filter, decide_eq_true_eq] at hj
    rcases hj with ⟨hjq, hjne⟩
    have hs := h q hq.1 j hjq
    rw [mapFind_remove_snd hash g label node hfind, if_neg hjne]
    rcases Option.isSome_iff_exists.mp hs with ⟨w, hw⟩
    simp [hw]

theorem noDangling_connect (g : Graph T) (x y : T) (h : NoDangling g) :
    NoDangling (connect hash g x y).2 := by
  cases hfst : (connect hash g x y).1 with
  | false => rw [connect_snd_of_false hash g x y hfst]; exact h
  | true =>
    intro p hp j hj
    have hkey : (mapFind j (connect hash g x y).2.nodes).isSome =
        (mapFind j g.nodes).isSome := by
      rw [mapFind_connect_snd hash g x y hfst]
      by_cases hjj : j = hash x
      · rw [if_pos hjj]
        cases mapFind j g.nodes <;> rfl
      · rw [if_neg hjj]
    rw [connect_snd_of_true hash g x y hfst] at hp
    simp only [List.mem_map] at hp
    rcases hp with ⟨q, hq, rfl⟩
    rw [hkey]
    by_cases hqx : q.1 = hash x
    · rw [if_pos hqx] at hj
      unfold Node.connect_to at hj
      simp only at hj
      rcases (mem_insertKey _ _ _).mp hj with rfl | hj0
      · exact ((connect_fst_iff hash g x y).mp hfst).2.2.1
      · exact h q hq j hj0
    · rw [if_neg hqx] at hj
      exact h q hq j hj

theorem noDangling_disconnect (g : Graph T) (x y : T) (h : NoDangling g) :
    NoDangling (disconnect hash g x y).2 := by
  cases hfst : (disconnect hash g x y).1 with
  | false => rw [disconnect_snd_of_false hash g x y hfst]; exact h
  | true =>
    intro p hp j hj
    have hkey : (mapFind j (disconnect hash g x y).2.nodes).isSome =
        (mapFind j g.nodes).isSome := by
      rw [mapFind_disconnect_snd hash g x y hfst]
      by_cases hjj : j = hash x
      · rw [if_pos hjj]
        cases mapFind j g.nodes <;> rfl
      · rw [if_neg hjj]
    rw [disconnect_snd_of_true hash g x y hfst] at hp
    simp only [List.mem_map] at hp
    rcases hp with ⟨q, hq, rfl⟩
    rw [hkey]
    by_cases hqx : q.1 = hash x
    · rw [if_pos hqx] at hj
      unfold Node.disconnect_from at hj
      simp only [List.mem_filter, decide_eq_true_eq] at hj
      exact h q hq j hj.1
    · rw [if_neg hqx] at hj
      exact h q hq j hj

theorem acyclic_add (g : Graph T) (label : T) (h : Acyclic g) :
    Acyclic (add hash g label) :=
  fun k hk => h k (Relation.TransGen.mono (edgeRel_add hash g label) hk)

theorem acyclic_remove (g : Graph T) (label : T) (h : Acyclic g) :
    Acyclic (remove hash g label).2 :=
  fun k hk => h k (Relation.TransGen.mono (edgeRel_remove hash g label) hk)

theorem acyclic_disconnect (g : Graph T) (x y : T) (h : Acyclic g) :
    Acyclic (disconnect hash g x y).2 :=
  fun k hk => h k (Relation.TransGen.mono (edgeRel_disconnect hash g x y) hk)

theorem acyclic_connect (g : Graph T) (x y : T) (h : Acyclic g) :
    Acyclic (connect hash g x y).2 := by
  cases hfst : (connect hash g x y).1 with
  | false => rw [connect_snd_of_false hash g x y hfst]; exact h
  | true =>
    intro k hk
    have hk' : Relation.TransGen
        (fun u v => edgeRel g u v ∨ (u = hash x ∧ v = hash y)) k k :=
      Relation.TransGen.mono
        (fun a b hab => (edgeRel_connect_true hash g x y hfst a b).mp hab) hk
    have hno := ((connect_fst_iff hash g x y).mp hfst).2.2.2
    exact transGen_insert_cycle h hno k hk'

theorem goodState_new : GoodState (new (T := T)) := by
  refine ⟨by simp [NodupKeys, new], ?_, ?_⟩
  · intro p hp
    simp [new] at hp
  · intro k hk
    have hne : ∀ u v, ¬ edgeRel (new (T := T)) u v := by
      intro u v hu
      rw [edgeRel_iff] at hu
      rcases hu with ⟨n, hf, -⟩
      simp [new, mapFind] at hf
    rcases Relation.TransGen.head'_iff.mp hk with ⟨c, hstep, -⟩
    exact hne k c hstep

theorem reachable_goodState (g : Graph T) (h : Reachable hash g) :
    GoodState g := by
  induction h with
  | emp => exact goodState_new
  | addOp g label hg ih =>
    exact ⟨nodupKeys_add hash g label ih.1, noDangling_add hash g label ih.2.1,
      acyclic_add hash g label ih.2.2⟩
  | removeOp g label hg ih =>
    exact ⟨nodupKeys_remove hash g label ih.1, noDangling_remove hash g label ih.2.1,
      acyclic_remove hash g label ih.2.2⟩
  | connectOp g x y hg ih =>
    exact ⟨nodupKeys_connect hash g x y ih.1, noDangling_connect hash g x y ih.2.1,
      acyclic_connect hash g x y ih.2.2⟩
  | disconnectOp g x y hg ih =>
    exact ⟨nodupKeys_disconnect hash g x y ih.1, noDangling_disconnect hash g x y ih.2.1,
      acyclic_disconnect hash g x y ih.2.2⟩

theorem reachable_foldl_add (g : Graph T) (ls : List T) (h : Reachable hash g) :
    Reachable hash (ls.foldl (add hash) g) := by
  induction ls generalizing g with
  | nil => exact h
  | cons l rest ih => exact ih _ (Reachable.addOp g l h)

theorem reachable_init (ls : List T) : Reachable hash (init hash ls) :=
  reachable_foldl_add hash new ls Reachable.emp

/-! ### Further helper lemmas for the claims -/

theorem mapFind_eq_of_nodupKeys {l : List (Nat × Node T)}
    (hnd : (l.map Prod.fst).Nodup) {k : Nat} {n : Node T}
    (hfind : mapFind k l = some n) :
    ∀ p ∈ l, p.1 = k → p = (k, n) := by
  induction l with
  | nil => simp
  | cons q rest ih =>
    simp only [List.map_cons, List.nodup_cons] at hnd
    intro p hp hpk
    rcases List.mem_cons.mp hp with rfl | hp
    · rw [mapFind, if_pos hpk] at hfind
      have hn : p.2 = n := by
        cases hfind
        rfl
      rw [← hpk, ← hn]
    · by_cases hq : q.1 = k
      · exfalso
        apply hnd.1
        rw [hq, ← hpk]
        exact List.mem_map.mpr ⟨p, hp, rfl⟩
      · rw [mapFind, if_neg hq] at hfind
        exact ih hnd.2 hfind p hp hpk

theorem containsKey_connect (g : Graph T) (x y : T)
    (h : (connect hash g x y).1 = true) (k : Nat) :
    containsKey (connect hash g x y).2 k = containsKey g k := by
  unfold containsKey
  rw [mapFind_connect_snd hash g x y h]
  by_cases hk : k = hash x
  · rw [if_pos hk]
    exact Option.isSome_map'
  · rw [if_neg hk]

theorem containsKey_disconnect (g : Graph T) (x y : T)
    (h : (disconnect hash g x y).1 = true) (k : Nat) :
    containsKey (disconnect hash g x y).2 k = containsKey g k := by
  unfold containsKey
  rw [mapFind_disconnect_snd hash g x y h]
  by_cases hk : k = hash x
  · rw [if_pos hk]
    exact Option.isSome_map'
  · rw [if_neg hk]

theorem resolveAll_eq_some (g : Graph T) (ks : List Nat)
    (h : ∀ j ∈ ks, (mapFind j g.nodes).isSome = true) :
    ∃ ls, resolveAll g ks = some ls ∧
      ∀ t, t ∈ ls ↔ ∃ j ∈ ks, ∃ n', mapFind j g.nodes = some n' ∧ n'.label = t := by
  induction ks with
  | nil => exact ⟨[], rfl, by simp⟩
  | cons k ks ih =>
    have hk : (mapFind k g.nodes).isSome = true := h k (List.mem_cons_self k ks)
    rcases Option.isSome_iff_exists.mp hk with ⟨n, hn⟩
    rcases ih (fun j hj => h j (List.mem_cons_of_mem k hj)) with ⟨ls, hls, hmem⟩
    refine ⟨n.label :: ls, ?_, ?_⟩
    · unfold resolveAll
      rw [hn, hls]
    · intro t
      simp only [List.mem_cons, hmem]
      constructor
      · rintro (rfl | ⟨j, hj, n', hn', ht⟩)
        · exact ⟨k, Or.inl rfl, n, hn, rfl⟩
        · exact ⟨j, Or.inr hj, n', hn', ht⟩
      · rintro ⟨j, (rfl | hj), n', hn', ht⟩
        · rw [hn] at hn'
          cases hn'
          exact Or.inl ht.symm
        · exact Or.inr ⟨j, hj, n', hn', ht⟩

theorem mapFind_foldl_add (g : Graph T) (labels : List T) (k : Nat) :
    mapFind k (labels.foldl (add hash) g).nodes =
      match labels.reverse.find? (fun l => decide (hash l = k)) with
      | some l => some ⟨l, []⟩
      | none => mapFind k g.nodes := by
  induction labels generalizing g with
  | nil => rfl
  | cons l ls ih =>
    simp only [List.foldl_cons, List.reverse_cons, List.find?_append]
    rw [ih (add hash g l)]
    cases hfind : ls.reverse.find? (fun l => decide (hash l = k)) with
    | some l' => simp [Option.or]
    | none =>
      simp only [Option.or_none]
      by_cases hk : hash l = k
      · subst hk
        rw [List.find?_cons_of_pos _ (by simp)]
        unfold add add_node
        simp [mapFind_mapInsert_self]
      · rw [List.find?_cons_of_neg _ (by simp [hk]), List.find?_nil]
        unfold add add_node
        simp only
        rw [mapFind_mapInsert_ne _ _ _ _ (fun hkk => hk hkk.symm)]
        rfl

end Graph

/-! ### The claims -/

/-- C1: every graph reachable from the empty graph by any sequence of the
public operations has an acyclic edge relation (no key reaches itself in
one or more steps); in particular, after any `connect` call that returns
true the resulting edge relation is still acyclic. -/
theorem claim_C1 (hash : T → Nat) (g : Graph T) (h : Reachable hash g) :
    (∀ k, ¬ Relation.TransGen (Graph.edgeRel g) k k) ∧
      (∀ x y, (Graph.connect hash g x y).1 = true →
        ∀ k, ¬ Relation.TransGen (Graph.edgeRel (Graph.connect hash g x y).2) k k) := by
  refine ⟨(Graph.reachable_goodState hash g h).2.2, ?_⟩
  intro x y _ k
  exact (Graph.reachable_goodState hash (Graph.connect hash g x y).2
    (Reachable.connectOp g x y h)).2.2 k

/-- C2: `connect` returns true iff the hashes differ, both keys are present,
and the source is not reachable from the destination; on success the edge is
present afterwards; and `connect x x` always returns false. -/
theorem claim_C2 (hash : T → Nat) (g : Graph T) (x y : T) :
    ((Graph.connect hash g x y).1 = true ↔
      hash x ≠ hash y ∧ Graph.containsKey g (hash x) = true ∧
        Graph.containsKey g (hash y) = true ∧
        ¬ Relation.ReflTransGen (Graph.edgeRel g) (hash y) (hash x)) ∧
    ((Graph.connect hash g x y).1 = true →
      Graph.is_connected hash (Graph.connect hash g x y).2 x y = true) ∧
    (∀ z : T, (Graph.connect hash g z z).1 = false) := by
  refine ⟨?_, ?_, ?_⟩
  · unfold Graph.containsKey
    exact Graph.connect_fst_iff hash g x y
  · intro hfst
    have hex := ((Graph.connect_fst_iff hash g x y).mp hfst).2.1
    rcases Option.isSome_iff_exists.mp hex with ⟨nx, hnx⟩
    unfold Graph.is_connected Graph.get
    rw [Graph.mapFind_connect_snd hash g x y hfst, if_pos rfl, hnx]
    simp only [Option.map_some']
    unfold Node.is_adjacent_to Node.connect_to
    simp [mem_insertKey]
  · intro z
    unfold Graph.connect
    simp

/-- C3: `remove` on an existing node returns that node, deletes its key from
the map (so `neighbors` of it is absent), strips the key from every
remaining node's neighbor set (so `is_connected y label` is false for all
remaining `y`), and on a missing node returns absence and leaves the graph
unchanged. -/
theorem claim_C3 (hash : T → Nat) (g : Graph T) (label : T) :
    (∀ node, Graph.get hash g label = some node →
      (Graph.remove hash g label).1 = some node ∧
      Graph.mapFind (hash label) (Graph.remove hash g label).2.nodes = none ∧
      Graph.neighbors hash (Graph.remove hash g label).2 label = none ∧
      (∀ y : T, Graph.is_connected hash (Graph.remove hash g label).2 y label = false) ∧
      (∀ k, k ≠ hash label →
        Graph.mapFind k (Graph.remove hash g label).2.nodes =
          (Graph.mapFind k g.nodes).map fun n => Node.disconnect_from hash n label)) ∧
    (Graph.get hash g label = none → Graph.remove hash g label = (none, g)) := by
  constructor
  · intro node hget
    unfold Graph.get at hget
    have h1 : (Graph.remove hash g label).1 = some node := by
      rw [Graph.remove_of_some hash g label node hget]
    have h2 : ∀ k, Graph.mapFind k (Graph.remove hash g label).2.nodes =
        (if k = hash label then none
         else (Graph.mapFind k g.nodes).map fun n => Node.disconnect_from hash n label) :=
      Graph.mapFind_remove_snd hash g label node hget
    refine ⟨h1, ?_, ?_, ?_, ?_⟩
    · rw [h2, if_pos rfl]
    · unfold Graph.neighbors Graph.get
      rw [h2, if_pos rfl]
      rfl
    · intro y
      unfold Graph.is_connected Graph.get
      rw [h2]
      by_cases hy : hash y = hash label
      · rw [if_pos hy]
      · rw [if_neg hy]
        cases hfy : Graph.mapFind (hash y) g.nodes with
        | none => rfl
        | some ny =>
          simp only [Option.map_some']
          unfold Node.is_adjacent_to Node.disconnect_from
          simp
    · intro k hk
      rw [h2, if_neg hk]
  · intro hget
    unfold Graph.get at hget
    exact Graph.remove_of_none hash g label hget

/-- C4: in a reachable graph that already has the edge `x → y` (with both
nodes present and distinct hashes), `connect x y` returns true again and
leaves the graph completely unchanged. -/
theorem claim_C4 (hash : T → Nat) (g : Graph T) (x y : T) (n : Node T)
    (h : Reachable hash g)
    (hfind : Graph.mapFind (hash x) g.nodes = some n)
    (hedge : hash y ∈ n.neighbors)
    (hy : Graph.containsKey g (hash y) = true)
    (hne : hash x ≠ hash y) :
    Graph.connect hash g x y = (true, g) := by
  have hgs := Graph.reachable_goodState hash g h
  have hacy := hgs.2.2
  have hnd := hgs.1
  have hEdge : Graph.edgeRel g (hash x) (hash y) :=
    (Graph.edgeRel_iff g (hash x) (hash y)).mpr ⟨n, hfind, hedge⟩
  have hnoreach : ¬ Relation.ReflTransGen (Graph.edgeRel g) (hash y) (hash x) := by
    intro hr
    exact hacy (hash x) (Relation.TransGen.head' hEdge hr)
  have hfst : (Graph.connect hash g x y).1 = true := by
    rw [Graph.connect_fst_iff]
    exact ⟨hne, Option.isSome_iff_exists.mpr ⟨n, hfind⟩, hy, hnoreach⟩
  have hsnd : (Graph.connect hash g x y).2 = g := by
    rw [Graph.connect_snd_of_true hash g x y hfst]
    have hmap : ∀ p ∈ g.nodes,
        (if p.1 = hash x then (p.1, Node.connect_to hash p.2 y) else p) = p := by
      intro p hp
      by_cases hpx : p.1 = hash x
      · have hpn := Graph.mapFind_eq_of_nodupKeys hnd hfind p hp hpx
        rw [if_pos hpx, hpn]
        unfold Node.connect_to
        rw [insertKey_of_mem hedge]
      · rw [if_neg hpx]
    rw [List.map_congr_left hmap]
    simp
  rw [Prod.ext_iff]
  exact ⟨hfst, hsnd⟩

/-- C5: in every reachable graph, every key in any node's neighbor set is
present in the node map, and consequently the per-neighbor lookup inside
`neighbors` (the `unwrap`) never fails: an existing node's `neighbors`
result is never the inner failure value. -/
theorem claim_C5 (hash : T → Nat) (g : Graph T) (h : Reachable hash g) :
    (∀ p ∈ g.nodes, ∀ j ∈ p.2.neighbors, (Graph.mapFind j g.nodes).isSome = true) ∧
    (∀ label r, Graph.neighbors hash g label = some r → r ≠ none) := by
  have hnd := (Graph.reachable_goodState hash g h).2.1
  refine ⟨hnd, ?_⟩
  intro label r hr
  unfold Graph.neighbors at hr
  cases hget : Graph.get hash g label with
  | none =>
    rw [hget] at hr
    cases hr
  | some node =>
    rw [hget] at hr
    simp only [Option.map_some', Option.some.injEq] at hr
    have hmem : ∀ j ∈ node.neighbors, (Graph.mapFind j g.nodes).isSome = true := by
      intro j hj
      unfold Graph.get at hget
      exact hnd (hash label, node) (Graph.mapFind_mem hget) j hj
    rcases Graph.resolveAll_eq_some g node.neighbors hmem with ⟨ls, hls, -⟩
    rw [← hr, hls]
    simp

/-- C6: `disconnect` returns true iff both endpoint nodes exist; on success
the edge is gone afterwards; and when both nodes exist two consecutive
`disconnect` calls both return true. -/
theorem claim_C6 (hash : T → Nat) (g : Graph T) (x y : T) :
    ((Graph.disconnect hash g x y).1 = true ↔
      Graph.containsKey g (hash x) = true ∧ Graph.containsKey g (hash y) = true) ∧
    ((Graph.disconnect hash g x y).1 = true →
      Graph.is_connected hash (Graph.disconnect hash g x y).2 x y = false) ∧
    (Graph.containsKey g (hash x) = true → Graph.containsKey g (hash y) = true →
      (Graph.disconnect hash g x y).1 = true ∧
      (Graph.disconnect hash (Graph.disconnect hash g x y).2 x y).1 = true) := by
  refine ⟨?_, ?_, ?_⟩
  · unfold Graph.containsKey
    exact Graph.disconnect_fst_iff hash g x y
  · intro hfst
    have hex := ((Graph.disconnect_fst_iff hash g x y).mp hfst).1
    rcases Option.isSome_iff_exists.mp hex with ⟨nx, hnx⟩
    unfold Graph.is_connected Graph.get
    rw [Graph.mapFind_disconnect_snd hash g x y hfst, if_pos rfl, hnx]
    simp only [Option.map_some']
    unfold Node.is_adjacent_to Node.disconnect_from
    simp
  · intro h1 h2
    unfold Graph.containsKey at h1 h2
    have hfst : (Graph.disconnect hash g x y).1 = true :=
      (Graph.disconnect_fst_iff hash g x y).mpr ⟨h1, h2⟩
    refine ⟨hfst, ?_⟩
    apply (Graph.disconnect_fst_iff hash _ x y).mpr
    constructor
    · have hc := Graph.containsKey_disconnect hash g x y hfst (hash x)
      unfold Graph.containsKey at hc
      rw [hc]
      exact h1
    · have hc := Graph.containsKey_disconnect hash g x y hfst (hash y)
      unfold Graph.containsKey at hc
      rw [hc]
      exact h2

/-- C7: `neighbors` is absent exactly when the node is absent; for an
existing node it returns (successfully) the set of labels of the direct
successors, resolved through the node map, and this set is empty when the
node has no outgoing edges. -/
theorem claim_C7 (hash : T → Nat) (g : Graph T) (label : T) (h : Reachable hash g) :
    (Graph.neighbors hash g label = none ↔ Graph.get hash g label = none) ∧
    (∀ node, Graph.get hash g label = some node →
      ∃ ls, Graph.neighbors hash g label = some (some ls) ∧
        (∀ t, t ∈ ls ↔ ∃ j ∈ node.neighbors, ∃ n',
          Graph.mapFind j g.nodes = some n' ∧ n'.label = t) ∧
        (node.neighbors = [] → ls = [])) := by
  have hnd := (Graph.reachable_goodState hash g h).2.1
  constructor
  · unfold Graph.neighbors
    exact Option.map_eq_none'
  · intro node hget
    have hmem : ∀ j ∈ node.neighbors, (Graph.mapFind j g.nodes).isSome = true := by
      intro j hj
      unfold Graph.get at hget
      exact hnd (hash label, node) (Graph.mapFind_mem hget) j hj
    rcases Graph.resolveAll_eq_some g node.neighbors hmem with ⟨ls, hls, hiff⟩
    refine ⟨ls, ?_, hiff, ?_⟩
    · unfold Graph.neighbors
      rw [hget]
      simp only [Option.map_some']
      rw [hls]
    · intro hempty
      apply List.eq_nil_iff_forall_not_mem.mpr
      intro t ht
      rcases (hiff t).mp ht with ⟨j, hj, -⟩
      rw [hempty] at hj
      cases hj

/-- C8: `add` inserts an edge-less node at the label's hash, overwriting any
node previously stored at that key while leaving every other entry (and so
all inbound edges) untouched; `init` produces one edge-less node per
distinct hash with last write winning. -/
theorem claim_C8 (hash : T → Nat) (g : Graph T) (label : T) (labels : List T) :
    Graph.mapFind (hash label) (Graph.add hash g label).nodes = some ⟨label, []⟩ ∧
    (∀ k, k ≠ hash label →
      Graph.mapFind k (Graph.add hash g label).nodes = Graph.mapFind k g.nodes) ∧
    (∀ k, Graph.mapFind k (Graph.init hash labels).nodes =
      (labels.reverse.find? fun l => decide (hash l = k)).map fun l => ⟨l, []⟩) := by
  refine ⟨?_, ?_, ?_⟩
  · unfold Graph.add Graph.add_node
    exact Graph.mapFind_mapInsert_self _ _ _
  · intro k hk
    unfold Graph.add Graph.add_node
    exact Graph.mapFind_mapInsert_ne _ _ _ _ hk
  · intro k
    unfold Graph.init
    rw [Graph.mapFind_foldl_add hash Graph.new labels k]
    cases labels.reverse.find? fun l => decide (hash l = k) with
    | some l => rfl
    | none => rfl

/-- C9: a failing mutation leaves the graph exactly unchanged: `connect`
returning false, `disconnect` returning false and `remove` returning
absence all keep the node map identical. -/
theorem claim_C9 (hash : T → Nat) (g : Graph T) (x y label : T) :
    ((Graph.connect hash g x y).1 = false → (Graph.connect hash g x y).2 = g) ∧
    ((Graph.disconnect hash g x y).1 = false → (Graph.disconnect hash g x y).2 = g) ∧
    ((Graph.remove hash g label).1 = none → (Graph.remove hash g label).2 = g) := by
  refine ⟨Graph.connect_snd_of_false hash g x y,
    Graph.disconnect_snd_of_false hash g x y, ?_⟩
  intro h
  cases hfind : Graph.mapFind (hash label) g.nodes with
  | none => rw [Graph.remove_of_none hash g label hfind]
  | some node =>
    rw [Graph.remove_of_some hash g label node hfind] at h
    cases h

/-- C10: when `connect` returns true the only change is the insertion of
`hash y` into the source node's neighbor-key set: key presence is unchanged
everywhere, every entry other than the source one is unchanged, and the
source entry keeps its label and gains exactly the key `hash y`. -/
theorem claim_C10 (hash : T → Nat) (g : Graph T) (x y : T)
    (h : (Graph.connect hash g x y).1 = true) :
    (∀ k, Graph.containsKey (Graph.connect hash g x y).2 k = Graph.containsKey g k) ∧
    (∀ k, k ≠ hash x →
      Graph.mapFind k (Graph.connect hash g x y).2.nodes = Graph.mapFind k g.nodes) ∧
    (∃ n, Graph.mapFind (hash x) g.nodes = some n ∧
      Graph.mapFind (hash x) (Graph.connect hash g x y).2.nodes =
        some ⟨n.label, insertKey n.neighbors (hash y)⟩ ∧
      (∀ j, j ∈ insertKey n.neighbors (hash y) ↔ j ∈ n.neighbors ∨ j = hash y)) := by
  refine ⟨Graph.containsKey_connect hash g x y h, ?_, ?_⟩
  · intro k hk
    rw [Graph.mapFind_connect_snd hash g x y h, if_neg hk]
  · have hex := ((Graph.connect_fst_iff hash g x y).mp h).2.1
    rcases Option.isSome_iff_exists.mp hex with ⟨n, hn⟩
    refine ⟨n, hn, ?_, ?_⟩
    · rw [Graph.mapFind_connect_snd hash g x y h, if_pos rfl, hn]
      rfl
    · intro j
      rw [mem_insertKey]
      tauto

/-! ### Witnesses: the claims applied at concrete inputs -/

/-- Witness for C1: the concrete reachable graph with edge `0 → 1` has no
cycle through key 0. -/
theorem claim_C1_witness :
    ¬ Relation.TransGen
      (Graph.edgeRel ((Graph.connect id (Graph.init id [0, 1]) 0 1).2)) 0 0 :=
  (claim_C1 id (Graph.connect id (Graph.init id [0, 1]) 0 1).2
    (Reachable.connectOp _ 0 1 (Graph.reachable_init id [0, 1]))).1 0

/-- Witness for C2: connecting `0 → 1` on the two-node graph succeeds and
the edge is present afterwards. -/
theorem claim_C2_witness :
    (Graph.connect id (Graph.init id [0, 1]) 0 1).1 = true ∧
      Graph.is_connected id (Graph.connect id (Graph.init id [0, 1]) 0 1).2 0 1 = true := by
  have h := claim_C2 id (Graph.init id [0, 1]) 0 1
  have h1 : (Graph.connect id (Graph.init id [0, 1]) 0 1).1 = true := by decide
  exact ⟨h1, h.2.1 h1⟩

/-- Witness for C3: removing node 0 from the two-node graph returns its
state. -/
theorem claim_C3_witness :
    (Graph.remove id (Graph.init id [0, 1]) 0).1 = some ⟨0, []⟩ :=
  ((claim_C3 id (Graph.init id [0, 1]) 0).1 ⟨0, []⟩ (by decide)).1

/-- Witness for C4: re-connecting the already present edge `0 → 1` returns
true and changes nothing. -/
theorem claim_C4_witness :
    Graph.connect id (Graph.connect id (Graph.init id [0, 1]) 0 1).2 0 1 =
      (true, (Graph.connect id (Graph.init id [0, 1]) 0 1).2) :=
  claim_C4 id _ 0 1 ⟨0, [1]⟩
    (Reachable.connectOp _ 0 1 (Graph.reachable_init id [0, 1]))
    (by decide) (by decide) (by decide) (by decide)

/-- Witness for C5: in the graph with edge `0 → 1` the neighbor key 1 of
node 0 resolves. -/
theorem claim_C5_witness :
    (Graph.mapFind 1 ((Graph.connect id (Graph.init id [0, 1]) 0 1).2).nodes).isSome
      = true :=
  (claim_C5 id (Graph.connect id (Graph.init id [0, 1]) 0 1).2
    (Reachable.connectOp _ 0 1 (Graph.reachable_init id [0, 1]))).1
    (0, ⟨0, [1]⟩) (by decide) 1 (by decide)

/-- Witness for C6: two consecutive disconnects of `0 → 1` on the two-node
graph both return true. -/
theorem claim_C6_witness :
    (Graph.disconnect id (Graph.init id [0, 1]) 0 1).1 = true ∧
      (Graph.disconnect id (Graph.disconnect id (Graph.init id [0, 1]) 0 1).2 0 1).1
        = true :=
  (claim_C6 id (Graph.init id [0, 1]) 0 1).2.2 (by decide) (by decide)

/-- Witness for C7: `neighbors` of the edge-less node 0 returns the empty
label set. -/
theorem claim_C7_witness :
    ∃ ls, Graph.neighbors id (Graph.init id [0, 1]) 0 = some (some ls) ∧
      (∀ t, t ∈ ls ↔ ∃ j ∈ (Node.mk 0 [] : Node Nat).neighbors, ∃ n',
        Graph.mapFind j (Graph.init id [0, 1]).nodes = some n' ∧ n'.label = t) ∧
      ((Node.mk 0 [] : Node Nat).neighbors = [] → ls = []) :=
  (claim_C7 id (Graph.init id [0, 1]) 0 (Graph.reachable_init id [0, 1])).2
    ⟨0, []⟩ (by decide)

/-- Witness for C8: adding node 4 leaves the entry at key 2 unchanged. -/
theorem claim_C8_witness :
    Graph.mapFind 2 (Graph.add id (Graph.init id [3]) 4).nodes =
      Graph.mapFind 2 (Graph.init id [3]).nodes :=
  (claim_C8 id (Graph.init id [3]) 4 [3]).2.1 2 (by decide)

/-- Witness for C9: the rejected self-connect `0 → 0` leaves the graph
unchanged. -/
theorem claim_C9_witness :
    (Graph.connect id (Graph.init id [0, 1]) 0 0).2 = Graph.init id [0, 1] :=
  (claim_C9 id (Graph.init id [0, 1]) 0 0 0).1 (by decide)

/-- Witness for C10: the successful connect `0 → 1` leaves the entry at
key 1 unchanged. -/
theorem claim_C10_witness :
    Graph.mapFind 1 ((Graph.connect id (Graph.init id [0, 1]) 0 1).2).nodes =
      Graph.mapFind 1 (Graph.init id [0, 1]).nodes :=
  (claim_C10 id (Graph.init id [0, 1]) 0 1 (by decide)).2.1 1 (by decide)

end RustyEdges
